import Mathlib

/-!
Verification development for the PLUMED `PairEntropy` collective variable
(`PAIRENTROPY` action).  The C++ source is shallowly embedded: doubles become
real numbers, fixed-size `Vector`/`Tensor` objects become functions out of
`Fin 3`, `std::vector` buffers indexed by bin become either Lean lists or
functions `ℕ → ℝ`, and the additive accumulation loops become big operators.
Fallible steps (the unguarded `while` scan over `gofr`) return `Option`.
-/

namespace PairEntropy

/-- 3-vector of doubles (`PLMD::Vector`, `tools/Vector.h`): componentwise
addition, subtraction and scalar multiplication come from the `Pi` instances,
matching the componentwise loops of the fixed-size linear-algebra primitives. -/
abbrev Vec3 := Fin 3 → ℝ

/-- 3x3 tensor of doubles (`PLMD::Tensor`, `tools/Tensor.h`). -/
abbrev Tensor3 := Fin 3 → Fin 3 → ℝ

/-- `TensorGeneric(const VectorGeneric&,const VectorGeneric&)`:
`d[i*m+j] = v1[i]*v2[j]` (outer product), Tensor.h line 188. -/
noncomputable def outerProd (v w : Vec3) : Tensor3 := fun i j => v i * w j

/-- `Tensor::identity()` (Tensor.h line 343). -/
noncomputable def identityTensor : Tensor3 := fun i j => if i = j then 1 else 0

/-- `Vector / double` componentwise division (used for
`gofrPrime[j][k] /= normConstant` and `distance / distanceModulo`). -/
noncomputable def vecDiv (v : Vec3) (c : ℝ) : Vec3 := fun i => v i / c

/-- `Tensor /= double` (Tensor.h line 255, multiplication by `1.0/s`,
which over the reals is exactly division). -/
noncomputable def tensorDiv (t : Tensor3) (c : ℝ) : Tensor3 := fun i j => t i j / c

/-!
### Trapezoidal integrator (PairEntropy.cpp lines 520-554)

`double PairEntropy::integrate(vector<double> integrand, double delta)`:
sum `integrand[i]` for `i = 1 .. size-2`, add half of the two endpoint
entries and scale by `delta`.  The `Vector` and `Tensor` overloads repeat
the same algorithm verbatim.  Out-of-range accesses are rendered by
`List.getD _ _ 0`; the C++ routines are only ever called with `size ≥ 1`.
-/

/-- `PairEntropy::integrate` for `vector<double>` (lines 520-530). -/
noncomputable def integrate (integrand : List ℝ) (delta : ℝ) : ℝ :=
  ((∑ i in Finset.Ico 1 (integrand.length - 1), integrand.getD i 0)
      + 0.5 * integrand.getD 0 0
      + 0.5 * integrand.getD (integrand.length - 1) 0) * delta

/-- `PairEntropy::integrate` for `vector<Vector>` (lines 532-542). -/
noncomputable def integrateVector (integrand : List Vec3) (delta : ℝ) : Vec3 :=
  delta • ((∑ i in Finset.Ico 1 (integrand.length - 1), integrand.getD i 0)
      + (0.5 : ℝ) • integrand.getD 0 0
      + (0.5 : ℝ) • integrand.getD (integrand.length - 1) 0)

/-- `PairEntropy::integrate` for `vector<Tensor>` (lines 544-554). -/
noncomputable def integrateTensor (integrand : List Tensor3) (delta : ℝ) : Tensor3 :=
  delta • ((∑ i in Finset.Ico 1 (integrand.length - 1), integrand.getD i 0)
      + (0.5 : ℝ) • integrand.getD 0 0
      + (0.5 : ℝ) • integrand.getD (integrand.length - 1) 0)

/-!
### The `nhist_min` scan (lines 435-440)

```
unsigned j=0; unsigned nhist_min=0;
while (gofr[j]<1.e-10) { nhist_min=j; ++j; }
```
The loop has no bound on `j`; reading past the end of the `nhist`-element
vector is undefined behaviour, rendered here by `none`: `scanGo` consumes the
list cell by cell, and reaching `[]` means the C++ loop would next read
`gofr[j]` with `j = ` length of the array, i.e. past index `nhist-1`. -/
noncomputable def scanGo : List ℝ → ℕ → ℕ → Option ℕ
  | [], _, _ => none
  | x :: xs, nmin, j => if x < 1e-10 then scanGo xs j (j + 1) else some nmin

/-- Result of the `nhist_min` scan on the full `gofr` array
(`some` of the final `nhist_min` value, `none` on the out-of-bounds read). -/
noncomputable def nhistMinOf (gofr : List ℝ) : Option ℕ := scanGo gofr 0 0

/-!
### Constructor check for OUTPUT_STRIDE (lines 237-241)

```
outputStride=1;
parse("OUTPUT_STRIDE",outputStride);
if (outputStride!=1 && !doOutputGofr && !doOutputIntegrand) error(...);
if (outputStride<1) error(...);
```
`parse` leaves the initial value `1` untouched when the keyword is absent,
modelled by `Option.getD 1`.  The function returns `true` exactly when the
constructor raises one of the two fatal errors (and hence aborts setup
before any step executes). -/
def outputStrideConfigError (strideOpt : Option ℕ)
    (doOutputGofr doOutputIntegrand : Bool) : Bool :=
  let outputStride := strideOpt.getD 1
  if outputStride ≠ 1 ∧ doOutputGofr = false ∧ doOutputIntegrand = false then true
  else if outputStride < 1 then true
  else false

/-!
### Running average of g(r) (constructor lines 259-265, calculate lines 425-431)

```
for(unsigned i=0;i<nhist;++i){
  avgGofr[i] += (gofr[i]-avgGofr[i])/( (double) iteration);
  gofr[i] = avgGofr[i];
}
iteration += 1;
```
with initial state `avgGofr = 0`, `iteration = 1` from the constructor. -/
noncomputable def avgUpdate (nhist iteration : ℕ) (avg g : ℕ → ℝ) : ℕ → ℝ :=
  fun i => if i < nhist then avg i + (g i - avg i) / (iteration : ℝ) else avg i

/-- The running average after `k` consecutive steps that all see the same
normalized `gofr = g`, starting from the constructor state
(`avgGofr = 0`, `iteration = 1`); step `k` uses iteration counter `k`. -/
noncomputable def avgAfter (nhist : ℕ) (g : ℕ → ℝ) : ℕ → ℕ → ℝ
  | 0 => fun _ => 0
  | k + 1 => avgUpdate nhist (k + 1) (avgAfter nhist g k) g

/-!
### Construction-time constants (constructor lines 219-282)
-/

/-- The grid and kernel constants fixed at construction. -/
structure Consts where
  nhist : ℕ
  deltar : ℝ
  rcut2 : ℝ
  deltaBin : ℕ
  invSqrt2piSigma : ℝ
  sigmaSqr2 : ℝ
  sigmaSqr : ℝ

/-- Derivation of the constants from the user inputs `MAXR`, `SIGMA`, `NHIST`:
`deltar = maxr/(nhist-1.)`, `rcut2 = (maxr+3*sigma)^2`,
`deltaBin = floor(3*sigma/deltar)`, `invSqrt2piSigma = 1/(sqrt(2*pi)*sigma)`,
`sigmaSqr2 = 2*sigma*sigma`, `sigmaSqr = sigma*sigma`. -/
noncomputable def mkConsts (maxr sigma : ℝ) (nhist : ℕ) : Consts :=
  ⟨nhist, maxr / ((nhist : ℝ) - 1), (maxr + 3 * sigma) * (maxr + 3 * sigma),
    (⌊3 * sigma / (maxr / ((nhist : ℝ) - 1))⌋).toNat,
    1 / (Real.sqrt (2 * Real.pi) * sigma), 2 * sigma * sigma, sigma * sigma⟩

/-- `vectorX[i] = deltar*i` (line 280). -/
noncomputable def vectorX (C : Consts) (i : ℕ) : ℝ := C.deltar * i

/-- `vectorX2[i] = vectorX[i]*vectorX[i]` (line 281). -/
noncomputable def vectorX2 (C : Consts) (i : ℕ) : ℝ := vectorX C i * vectorX C i

/-- `PairEntropy::kernel` value (lines 513-518):
`invSqrt2piSigma*exp(-distance*distance/sigmaSqr2)`. -/
noncomputable def kernel (C : Consts) (x : ℝ) : ℝ :=
  C.invSqrt2piSigma * Real.exp (-(x * x) / C.sigmaSqr2)

/-- `PairEntropy::kernel` derivative output: `der = -distance*result/sigmaSqr`. -/
noncomputable def kernelDer (C : Consts) (x : ℝ) : ℝ := -x * kernel C x / C.sigmaSqr

/-!
### Per-pair kernel accumulation (calculate, all-pairs path lines 366-401)
-/

/-- Squared distance `d2 = dx*dx + dy*dy + dz*dz` (line 380). -/
noncomputable def dist2 (dv : Vec3) : ℝ := dv 0 * dv 0 + dv 1 * dv 1 + dv 2 * dv 2

/-- Cutoff acceptance (line 380): the three prefix sums of the squared
distance must each be strictly below `rcut2` (strict `<`, so a pair exactly
on the cutoff boundary is excluded). -/
def accepted (C : Consts) (dv : Vec3) : Prop :=
  dv 0 * dv 0 < C.rcut2 ∧ dv 0 * dv 0 + dv 1 * dv 1 < C.rcut2 ∧
    dv 0 * dv 0 + dv 1 * dv 1 + dv 2 * dv 2 < C.rcut2

noncomputable instance (C : Consts) (dv : Vec3) : Decidable (accepted C dv) :=
  inferInstanceAs (Decidable (dv 0 * dv 0 < C.rcut2 ∧
    dv 0 * dv 0 + dv 1 * dv 1 < C.rcut2 ∧
    dv 0 * dv 0 + dv 1 * dv 1 + dv 2 * dv 2 < C.rcut2))

/-- `unsigned bin = floor(distanceModulo/deltar)` (line 383), kept in `ℤ`
because the subsequent `minBin`/`maxBin` arithmetic is signed. -/
noncomputable def binOf (C : Consts) (dm : ℝ) : ℤ := ⌊dm / C.deltar⌋

/-- `minBin = bin - deltaBin`, clamped into `[0, nhist-1]` (lines 386-388). -/
noncomputable def minBinOf (C : Consts) (b : ℤ) : ℤ :=
  let m := b - (C.deltaBin : ℤ)
  let m := if m < 0 then 0 else m
  if ((C.nhist : ℤ) - 1) < m then (C.nhist : ℤ) - 1 else m

/-- `maxBin = bin + deltaBin`, clamped from above by `nhist-1` (lines 389-390). -/
noncomputable def maxBinOf (C : Consts) (b : ℤ) : ℤ :=
  let m := b + (C.deltaBin : ℤ)
  if ((C.nhist : ℤ) - 1) < m then (C.nhist : ℤ) - 1 else m

/-- Bin `k` lies in the window `[minBin, maxBin]` of the pair at distance `dm`. -/
def inWindow (C : Consts) (dm : ℝ) (k : ℕ) : Prop :=
  minBinOf C (binOf C dm) ≤ (k : ℤ) ∧ (k : ℤ) ≤ maxBinOf C (binOf C dm)

noncomputable instance (C : Consts) (dm : ℝ) (k : ℕ) : Decidable (inWindow C dm k) :=
  inferInstanceAs (Decidable (minBinOf C (binOf C dm) ≤ (k : ℤ) ∧
    (k : ℤ) ≤ maxBinOf C (binOf C dm)))

/-- `Vector value = dfunc * distance_versor` for bin `k` (lines 392-393),
with `distance_versor = distance / distanceModulo`. -/
noncomputable def pairBinValue (C : Consts) (dv : Vec3) (k : ℕ) : Vec3 :=
  kernelDer C (vectorX C k - Real.sqrt (dist2 dv)) • vecDiv dv (Real.sqrt (dist2 dv))

/-- Amount added to `gofr[k]` by the pair `(i0,i1)` with distance vector `dv`
(line 392), zero when the pair is a folded self-pair (line 374: the
`getAbsoluteIndex` comparison), rejected by the cutoff, or `k` outside the
kernel window. -/
noncomputable def pairGofrContrib (C : Consts) (absIdx : ℕ → ℕ) (i0 i1 : ℕ)
    (dv : Vec3) (k : ℕ) : ℝ :=
  if absIdx i0 = absIdx i1 then 0
  else if accepted C dv ∧ inWindow C (Real.sqrt (dist2 dv)) k then
    kernel C (vectorX C k - Real.sqrt (dist2 dv))
  else 0

/-- Amount added to `gofrPrime[k][a]` by the pair `(i0,i1)` (lines 394-395):
`+value` at `a = i0`, `-value` at `a = i1` (Newton's-third-law pair). -/
noncomputable def pairPrimeContrib (C : Consts) (absIdx : ℕ → ℕ) (i0 i1 : ℕ)
    (dv : Vec3) (k a : ℕ) : Vec3 :=
  if absIdx i0 = absIdx i1 then 0
  else if accepted C dv ∧ inWindow C (Real.sqrt (dist2 dv)) k then
    (if a = i0 then pairBinValue C dv k else 0) -
      (if a = i1 then pairBinValue C dv k else 0)
  else 0

/-- Amount added to `gofrVirial[k]` by the pair (lines 396-397):
the outer product `Tensor vv(value, distance)`. -/
noncomputable def pairVirialContrib (C : Consts) (absIdx : ℕ → ℕ) (i0 i1 : ℕ)
    (dv : Vec3) (k : ℕ) : Tensor3 :=
  if absIdx i0 = absIdx i1 then 0
  else if accepted C dv ∧ inWindow C (Real.sqrt (dist2 dv)) k then
    outerProd (pairBinValue C dv k) dv
  else 0

/-!
### The partitioned all-pairs loops (lines 366-401) and the reduction (403-407)

The outer loop `for(i=rank; i<N-1; i+=stride)` visits exactly the indices
`i < N-1` with `i % stride = rank` (for the MPI ranks `rank < stride`); the
inner loop visits `j = i+1 .. N-1`.  `dist i j` stands for the externally
supplied `pbcDistance(getPosition(i), getPosition(j))` (resp. `delta(...)`),
and `absIdx` for `getAbsoluteIndex`.  Every `+=` in the loop body adds a pure
per-pair contribution, so the final arrays are sums over the visited pairs.
-/

/-- `gofr` accumulated by one rank of the all-pairs path. -/
noncomputable def gofrRaw (C : Consts) (dist : ℕ → ℕ → Vec3) (absIdx : ℕ → ℕ)
    (N rank stride : ℕ) : ℕ → ℝ :=
  fun k => ∑ i in (Finset.range (N - 1)).filter (fun i => i % stride = rank),
    ∑ j in Finset.Ico (i + 1) N, pairGofrContrib C absIdx i j (dist i j) k

/-- `gofrPrime` accumulated by one rank of the all-pairs path. -/
noncomputable def gofrPrimeRaw (C : Consts) (dist : ℕ → ℕ → Vec3) (absIdx : ℕ → ℕ)
    (N rank stride : ℕ) : ℕ → ℕ → Vec3 :=
  fun k a => ∑ i in (Finset.range (N - 1)).filter (fun i => i % stride = rank),
    ∑ j in Finset.Ico (i + 1) N, pairPrimeContrib C absIdx i j (dist i j) k a

/-- `gofrVirial` accumulated by one rank of the all-pairs path. -/
noncomputable def gofrVirialRaw (C : Consts) (dist : ℕ → ℕ → Vec3) (absIdx : ℕ → ℕ)
    (N rank stride : ℕ) : ℕ → Tensor3 :=
  fun k => ∑ i in (Finset.range (N - 1)).filter (fun i => i % stride = rank),
    ∑ j in Finset.Ico (i + 1) N, pairVirialContrib C absIdx i j (dist i j) k

/-- `comm.Sum(&gofr[0],nhist)` (line 404): elementwise sum over all ranks. -/
noncomputable def gofrReduced (C : Consts) (dist : ℕ → ℕ → Vec3) (absIdx : ℕ → ℕ)
    (N stride : ℕ) : ℕ → ℝ :=
  fun k => ∑ r in Finset.range stride, gofrRaw C dist absIdx N r stride k

/-- `comm.Sum(&gofrPrime[0][0],nhist*N)` (line 405). -/
noncomputable def gofrPrimeReduced (C : Consts) (dist : ℕ → ℕ → Vec3) (absIdx : ℕ → ℕ)
    (N stride : ℕ) : ℕ → ℕ → Vec3 :=
  fun k a => ∑ r in Finset.range stride, gofrPrimeRaw C dist absIdx N r stride k a

/-- `comm.Sum(&gofrVirial[0],nhist)` (line 406). -/
noncomputable def gofrVirialReduced (C : Consts) (dist : ℕ → ℕ → Vec3) (absIdx : ℕ → ℕ)
    (N stride : ℕ) : ℕ → Tensor3 :=
  fun k => ∑ r in Finset.range stride, gofrVirialRaw C dist absIdx N r stride k

/-!
### Normalization, integrands, derivative assembly (lines 408-511)
-/

/-- Lines 410-412: `if (density_given>0) density=density_given;
else density=getNumberOfAtoms()/volume;`. -/
noncomputable def densityOf (densityGiven : ℝ) (numAtoms : ℕ) (volume : ℝ) : ℝ :=
  if 0 < densityGiven then densityGiven else (numAtoms : ℝ) / volume

/-- Normalization of `gofr` (lines 416-418): bins `1 .. nhist-1` are divided
by `normConstant = normConstantBase*vectorX2[j]`; bin 0 is left untouched. -/
noncomputable def normalizeG (C : Consts) (normConstantBase : ℝ) (g : ℕ → ℝ) : ℕ → ℝ :=
  fun j => if 1 ≤ j ∧ j < C.nhist then g j / (normConstantBase * vectorX2 C j) else g j

/-- Normalization of `gofrPrime` (lines 420-422). -/
noncomputable def normalizeGP (C : Consts) (normConstantBase : ℝ)
    (gp : ℕ → ℕ → Vec3) : ℕ → ℕ → Vec3 :=
  fun j a => if 1 ≤ j ∧ j < C.nhist then
    vecDiv (gp j a) (normConstantBase * vectorX2 C j) else gp j a

/-- Normalization of `gofrVirial` (line 419). -/
noncomputable def normalizeGV (C : Consts) (normConstantBase : ℝ)
    (gv : ℕ → Tensor3) : ℕ → Tensor3 :=
  fun j => if 1 ≤ j ∧ j < C.nhist then
    tensorDiv (gv j) (normConstantBase * vectorX2 C j) else gv j

/-- `logGofr[j]` (lines 444-457): with a reference g(r), `0` when the
reference is below `1e-10` and `log(gofr[j]/referenceGofr[j])` otherwise;
without a reference, `log(gofr[j])`. -/
noncomputable def logGofrOf (doReference : Bool) (ref g : ℕ → ℝ) (j : ℕ) : ℝ :=
  if doReference then (if ref j < 1e-10 then 0 else Real.log (g j / ref j))
  else Real.log (g j)

/-- The value integrand `integrand[j]` (lines 443-464): the relative-entropy
form `(g*log(g/ref) - g + ref)*x^2` with a reference, the absolute form
`(g*log(g) - g + 1)*x^2` without; bins with `g < 1e-10` use the limiting
substitution `ref*x^2` resp. `x^2`. -/
noncomputable def valueIntegrandEntry (doReference : Bool) (g ref logG x2 : ℕ → ℝ)
    (j : ℕ) : ℝ :=
  if doReference then
    (if g j < 1e-10 then ref j * x2 j else (g j * logG j - g j + ref j) * x2 j)
  else
    (if g j < 1e-10 then x2 j else (g j * logG j - g j + 1) * x2 j)

/-- Entry `k` of the per-atom derivative integrand for atom `j`
(lines 472-477): `gofrPrime[k][j]*logGofr[k]*vectorX2[k]` for
`k ≥ nhist_min` with `gofr[k] > 1e-10`, zero otherwise (the vector is
zero-initialized and the loop starts at `nhist_min`). -/
noncomputable def derivIntegrandEntry (nmin : ℕ) (g logG x2 : ℕ → ℝ)
    (gp : ℕ → ℕ → Vec3) (k j : ℕ) : Vec3 :=
  if nmin ≤ k ∧ 1e-10 < g k then (logG k * x2 k) • gp k j else 0

/-- Entry `k` of the virial integrand (lines 484-489):
`gofrVirial[k]*logGofr[k]*vectorX2[k]` under the same guards. -/
noncomputable def virialIntegrandEntry (nmin : ℕ) (g logG x2 : ℕ → ℝ)
    (gv : ℕ → Tensor3) (k : ℕ) : Tensor3 :=
  if nmin ≤ k ∧ 1e-10 < g k then (logG k * x2 k) • gv k else 0

/-- The volume-virial term (line 504):
`-TwoPiDensity*integrate(integrandVirialVolume,deltar)*Tensor::identity()`. -/
noncomputable def volumeVirialTerm (twoPiDensity deltar : ℝ) (ivv : List ℝ) : Tensor3 :=
  (-twoPiDensity * integrate ivv deltar) • identityTensor

/-- Lines 492-505: the volume-virial term is added to the positional virial
exactly under the guard `density_given < 0`. -/
noncomputable def virialTotal (densityGiven : ℝ) (virialPos : Tensor3)
    (twoPiDensity deltar : ℝ) (ivv : List ℝ) : Tensor3 :=
  virialPos + if densityGiven < 0 then volumeVirialTerm twoPiDensity deltar ivv else 0

/-- One rank's share of the per-atom derivative loop (lines 471-480):
atoms `j < N` with `j % stride = rank` get the full integral, the others
stay at their zero initialization. -/
noncomputable def derivAssembleRank (N rank stride : ℕ) (dFull : ℕ → Vec3) : ℕ → Vec3 :=
  fun j => if j < N ∧ j % stride = rank then dFull j else 0

/-- `comm.Sum(&deriv[0][0],3*N)` (line 481): elementwise sum of the
per-rank derivative arrays. -/
noncomputable def derivAssembleReduced (N stride : ℕ) (dFull : ℕ → Vec3) : ℕ → Vec3 :=
  fun j => ∑ r in Finset.range stride, derivAssembleRank N r stride dFull j

/-- The per-step inputs of `calculate()` that come from the host engine and
from the instance state: atom count, box volume, the `DENSITY` override
(`-1` when unspecified), the optional reference g(r), and the running-average
state. -/
structure RunInput where
  numAtoms : ℕ
  volume : ℝ
  densityGiven : ℝ
  doReference : Bool
  referenceGofr : ℕ → ℝ
  doAverage : Bool
  avgGofr : ℕ → ℝ
  iteration : ℕ

/-- The quantities `calculate()` reports: the scalar (`setValue`), the
per-atom gradients (`setAtomsDerivatives`), the box derivative
(`setBoxDerivatives`), and the updated running-average state. -/
structure CalcOutput where
  value : ℝ
  deriv : ℕ → Vec3
  virial : Tensor3
  avgOut : ℕ → ℝ
  iterationOut : ℕ

/-- Everything `calculate()` does after the pair accumulation (lines
408-511), as a function of the accumulated arrays `g0`, `gp0`, `gv0` and of
the derivative partition/reduction scheme `assemble`: volume/density,
normalization, optional running average, the `nhist_min` scan (`none` on its
out-of-bounds read), the entropy integrand and scalar, the per-atom
derivative integrals, and the virial with its conditional volume term. -/
noncomputable def calcPost (C : Consts) (I : RunInput)
    (g0 : ℕ → ℝ) (gp0 : ℕ → ℕ → Vec3) (gv0 : ℕ → Tensor3)
    (assemble : (ℕ → Vec3) → ℕ → Vec3) : Option CalcOutput :=
  let density := densityOf I.densityGiven I.numAtoms I.volume
  let twoPiDensity := 2 * Real.pi * density
  let normConstantBase := twoPiDensity * (I.numAtoms : ℝ)
  let gN := normalizeG C normConstantBase g0
  let gpN := normalizeGP C normConstantBase gp0
  let gvN := normalizeGV C normConstantBase gv0
  let gUsed := if I.doAverage then avgUpdate C.nhist I.iteration I.avgGofr gN else gN
  let avgOut := if I.doAverage then avgUpdate C.nhist I.iteration I.avgGofr gN else I.avgGofr
  let iterationOut := if I.doAverage then I.iteration + 1 else I.iteration
  match nhistMinOf ((List.range C.nhist).map gUsed) with
  | none => none
  | some nmin =>
    let logG := logGofrOf I.doReference I.referenceGofr gUsed
    let integrand := (List.range C.nhist).map
      (valueIntegrandEntry I.doReference gUsed I.referenceGofr logG (vectorX2 C))
    let value := -twoPiDensity * integrate integrand C.deltar
    let dFull : ℕ → Vec3 := fun j => (-twoPiDensity) • integrateVector
      ((List.range C.nhist).map
        (fun k => derivIntegrandEntry nmin gUsed logG (vectorX2 C) gpN k j)) C.deltar
    let deriv := assemble dFull
    let virialPos := (-twoPiDensity) • integrateTensor
      ((List.range C.nhist).map
        (fun k => virialIntegrandEntry nmin gUsed logG (vectorX2 C) gvN k)) C.deltar
    let ivv := (List.range C.nhist).map (fun j =>
      if I.doReference then (-(gUsed j) + I.referenceGofr j) * vectorX2 C j
      else (-(gUsed j) + 1) * vectorX2 C j)
    let virial := virialTotal I.densityGiven virialPos twoPiDensity C.deltar ivv
    some ⟨value, deriv, virial, avgOut, iterationOut⟩

/-- `calculate()` with `SERIAL` (one logical worker): `stride=1, rank=0`
(lines 322-324), accumulation unreduced, derivative loop over every atom. -/
noncomputable def calcSerial (C : Consts) (I : RunInput)
    (dist : ℕ → ℕ → Vec3) (absIdx : ℕ → ℕ) : Option CalcOutput :=
  calcPost C I (gofrRaw C dist absIdx I.numAtoms 0 1)
    (gofrPrimeRaw C dist absIdx I.numAtoms 0 1)
    (gofrVirialRaw C dist absIdx I.numAtoms 0 1)
    (derivAssembleRank I.numAtoms 0 1)

/-- `calculate()` in parallel mode over `stride` ranks: the round-robin
partitioned accumulation combined by the elementwise-sum reduction, and the
round-robin partitioned, sum-reduced derivative loop. -/
noncomputable def calcParallel (C : Consts) (I : RunInput)
    (dist : ℕ → ℕ → Vec3) (absIdx : ℕ → ℕ) (stride : ℕ) : Option CalcOutput :=
  calcPost C I (gofrReduced C dist absIdx I.numAtoms stride)
    (gofrPrimeReduced C dist absIdx I.numAtoms stride)
    (gofrVirialReduced C dist absIdx I.numAtoms stride)
    (derivAssembleReduced I.numAtoms stride)

/-!
### Positions, perturbations, and the reported quantities (for the
finite-difference/derivative property)

Positions enter `calculate()` only through the pairwise distance vectors
(line 378, `distance=delta(getPosition(i0),getPosition(i1))`, the
non-periodic branch; the periodic fold is an external geometry routine).
`PLMD::delta(a,b) = b - a`.
-/

theorem getD_range_map {α : Type} (d : α) (n : ℕ) (f : ℕ → α) (i : ℕ) :
    ((List.range n).map f).getD i d = if i < n then f i else d := by
  rcases lt_or_ge i n with h | h
  · rw [if_pos h, List.getD_eq_getD_get?, List.get?_map, List.get?_range h]
    rfl
  · rw [if_neg (not_lt.mpr h), List.getD_eq_getD_get?, List.get?_eq_none.mpr]
    · rfl
    · simpa using h

theorem getD_map_comm {α β : Type} (l : List α) (f : α → β) (d : α) (k : ℕ) :
    (l.map f).getD k (f d) = f (l.getD k d) := by
  rw [List.getD_eq_getD_get?, List.getD_eq_getD_get?, List.get?_map]
  cases l.get? k <;> rfl

theorem scanGo_isSome (l : List ℝ) : ∀ nmin j : ℕ,
    (scanGo l nmin j).isSome = true ↔ ∃ x ∈ l, ¬ x < 1e-10 := by
  induction l with
  | nil => intro nmin j; simp [scanGo]
  | cons x xs ih =>
    intro nmin j
    by_cases hx : x < 1e-10
    · simp only [scanGo, if_pos hx, ih, List.mem_cons]
      constructor
      · rintro ⟨y, hy, hny⟩; exact ⟨y, Or.inr hy, hny⟩
      · rintro ⟨y, hy | hy, hny⟩
        · exact absurd hx (hy ▸ hny)
        · exact ⟨y, hy, hny⟩
    · simp only [scanGo, if_neg hx, Option.isSome_some, true_iff]
      exact ⟨x, List.mem_cons_self x xs, hx⟩

theorem scanGo_spec (l : List ℝ) : ∀ nmin j m : ℕ, scanGo l nmin j = some m →
    (m = nmin ∧ l ≠ [] ∧ ¬ l.getD 0 0 < 1e-10) ∨
    (∃ t, t < l.length ∧ m = j + t ∧ (∀ u ≤ t, l.getD u 0 < 1e-10) ∧
      ¬ l.getD (t + 1) 0 < 1e-10) := by
  induction l with
  | nil => intro nmin j m h; exact absurd h (by simp [scanGo])
  | cons x xs ih =>
    intro nmin j m h
    by_cases hx : x < 1e-10
    · right
      rw [scanGo, if_pos hx] at h
      rcases ih j (j + 1) m h with ⟨hm, hne, hhd⟩ | ⟨t, ht, hm, hall, hnext⟩
      · refine ⟨0, by simp, by omega, ?_, ?_⟩
        · intro u hu; interval_cases u; simpa using hx
        · cases xs with
          | nil => exact absurd rfl hne
          | cons y ys => simpa using hhd
      · refine ⟨t + 1, by simpa using ht, by omega, ?_, by simpa using hnext⟩
        intro u hu
        cases u with
        | zero => simpa using hx
        | succ v => simpa using hall v (by omega)
    · left
      rw [scanGo, if_neg hx] at h
      exact ⟨by simpa using h.symm, by simp, by simpa using hx⟩

theorem sum_vecDiv {α : Type} (s : Finset α) (f : α → Vec3) (c : ℝ) :
    ∑ a in s, vecDiv (f a) c = vecDiv (∑ a in s, f a) c := by
  funext i
  simp [vecDiv, Finset.sum_apply, Finset.sum_div]

theorem sum_pairPrimeContrib (C : Consts) (absIdx : ℕ → ℕ) (i0 i1 : ℕ) (dv : Vec3)
    (k : ℕ) (s : Finset ℕ) (h0 : i0 ∈ s) (h1 : i1 ∈ s) :
    ∑ a in s, pairPrimeContrib C absIdx i0 i1 dv k a = 0 := by
  unfold pairPrimeContrib
  by_cases hskip : absIdx i0 = absIdx i1
  · simp [hskip]
  · simp only [if_neg hskip]
    by_cases hacc : accepted C dv ∧ inWindow C (Real.sqrt (dist2 dv)) k
    · simp only [if_pos hacc, Finset.sum_sub_distrib, Finset.sum_ite_eq', h0, h1, if_pos]
      exact sub_self _
    · simp [hacc]

theorem sum_gofrPrimeRaw (C : Consts) (dist : ℕ → ℕ → Vec3) (absIdx : ℕ → ℕ)
    (N rank stride k : ℕ) :
    ∑ a in Finset.range N, gofrPrimeRaw C dist absIdx N rank stride k a = 0 := by
  unfold gofrPrimeRaw
  rw [Finset.sum_comm]
  refine Finset.sum_eq_zero fun i hi => ?_
  rw [Finset.sum_comm]
  refine Finset.sum_eq_zero fun j hj => ?_
  refine sum_pairPrimeContrib _ _ _ _ _ _ _ ?_ ?_
  · have := Finset.mem_range.mp (Finset.mem_filter.mp hi).1
    exact Finset.mem_range.mpr (by omega)
  · exact Finset.mem_range.mpr (Finset.mem_Ico.mp hj).2

theorem sum_gofrPrimeReduced (C : Consts) (dist : ℕ → ℕ → Vec3) (absIdx : ℕ → ℕ)
    (N stride k : ℕ) :
    ∑ a in Finset.range N, gofrPrimeReduced C dist absIdx N stride k a = 0 := by
  unfold gofrPrimeReduced
  rw [Finset.sum_comm]
  exact Finset.sum_eq_zero fun r _ => sum_gofrPrimeRaw C dist absIdx N r stride k

theorem sum_normalizeGP (C : Consts) (nb : ℝ) (gp0 : ℕ → ℕ → Vec3) (N k : ℕ)
    (h : ∑ a in Finset.range N, gp0 k a = 0) :
    ∑ a in Finset.range N, normalizeGP C nb gp0 k a = 0 := by
  unfold normalizeGP
  by_cases hg : 1 ≤ k ∧ k < C.nhist
  · simp only [if_pos hg, sum_vecDiv, h]
    funext i
    simp [vecDiv]
  · simpa only [if_neg hg] using h

theorem sum_integrateVector {α : Type} (s : Finset α) (n : ℕ) (E : ℕ → α → Vec3)
    (delta : ℝ) (h : ∀ k, k < n → ∑ j in s, E k j = 0) :
    ∑ j in s, integrateVector ((List.range n).map fun k => E k j) delta = 0 := by
  unfold integrateVector
  rw [← Finset.smul_sum]
  have hz : ∑ j in s,
      ((∑ i in Finset.Ico 1 (((List.range n).map fun k => E k j).length - 1),
          ((List.range n).map fun k => E k j).getD i 0)
        + (0.5 : ℝ) • ((List.range n).map fun k => E k j).getD 0 0
        + (0.5 : ℝ) • ((List.range n).map fun k => E k j).getD (((List.range n).map fun k => E k j).length - 1) 0) = 0 := by
    have hlen : ∀ j : α, ((List.range n).map fun k => E k j).length = n := by
      intro j; simp
    simp only [hlen, getD_range_map]
    rw [Finset.sum_add_distrib, Finset.sum_add_distrib]
    have h1 : ∑ j in s, ∑ i in Finset.Ico 1 (n - 1),
        (if i < n then E i j else 0) = 0 := by
      rw [Finset.sum_comm]
      refine Finset.sum_eq_zero fun i hi => ?_
      have hin : i < n := by
        have := (Finset.mem_Ico.mp hi).2; omega
      simp only [if_pos hin]
      exact h i hin
    have h2 : ∑ j in s, (0.5 : ℝ) • (if 0 < n then E 0 j else 0) = 0 := by
      rw [← Finset.smul_sum]
      by_cases h0 : 0 < n
      · simp only [if_pos h0, h 0 h0, smul_zero]
      · simp [h0]
    have h3 : ∑ j in s, (0.5 : ℝ) • (if n - 1 < n then E (n - 1) j else 0) = 0 := by
      rw [← Finset.smul_sum]
      by_cases h0 : n - 1 < n
      · simp only [if_pos h0, h (n - 1) h0, smul_zero]
      · simp [h0]
    rw [h1, h2, h3]
    simp
  rw [hz, smul_zero]

theorem filter_mod_one (m : ℕ) :
    (Finset.range m).filter (fun i => i % 1 = 0) = Finset.range m :=
  Finset.filter_true_of_mem fun i _ => Nat.mod_one i

theorem sum_mod_partition {M : Type} [AddCommMonoid M] (F : ℕ → M) (m s : ℕ)
    (hs : 0 < s) :
    ∑ r in Finset.range s, ∑ i in (Finset.range m).filter (fun i => i % s = r), F i
      = ∑ i in Finset.range m, F i :=
  Finset.sum_fiberwise_of_maps_to (fun i _ => Finset.mem_range.mpr (Nat.mod_lt i hs)) F

theorem gofrReduced_eq_serial (C : Consts) (dist : ℕ → ℕ → Vec3) (absIdx : ℕ → ℕ)
    (N stride : ℕ) (hs : 0 < stride) :
    gofrReduced C dist absIdx N stride = gofrRaw C dist absIdx N 0 1 := by
  funext k
  unfold gofrReduced gofrRaw
  rw [sum_mod_partition _ _ _ hs, filter_mod_one]

theorem gofrPrimeReduced_eq_serial (C : Consts) (dist : ℕ → ℕ → Vec3) (absIdx : ℕ → ℕ)
    (N stride : ℕ) (hs : 0 < stride) :
    gofrPrimeReduced C dist absIdx N stride = gofrPrimeRaw C dist absIdx N 0 1 := by
  funext k a
  unfold gofrPrimeReduced gofrPrimeRaw
  rw [sum_mod_partition _ _ _ hs, filter_mod_one]

theorem gofrVirialReduced_eq_serial (C : Consts) (dist : ℕ → ℕ → Vec3) (absIdx : ℕ → ℕ)
    (N stride : ℕ) (hs : 0 < stride) :
    gofrVirialReduced C dist absIdx N stride = gofrVirialRaw C dist absIdx N 0 1 := by
  funext k
  unfold gofrVirialReduced gofrVirialRaw
  rw [sum_mod_partition _ _ _ hs, filter_mod_one]

theorem derivAssembleReduced_eq_serial (N stride : ℕ) (hs : 0 < stride) :
    derivAssembleReduced N stride = derivAssembleRank N 0 1 := by
  funext dFull j
  unfold derivAssembleReduced derivAssembleRank
  by_cases hj : j < N
  · simp only [hj, true_and, Nat.mod_one]
    rw [Finset.sum_ite_eq (Finset.range stride) (j % stride) (fun _ => dFull j)]
    · simp [Finset.mem_range.mpr (Nat.mod_lt j hs)]
  · simp [hj]

theorem twoMulDiv (x y : ℝ) : 2 * x / (2 * y) = x / y :=
  mul_div_mul_left x y two_ne_zero

/-- C2: for every configuration, positions (entering through the pairwise
distance function), and box, serial execution (one logical worker: `stride=1`,
`rank=0`, no reduction) and parallel execution with any positive worker count
(round-robin partition of the all-pairs loop and of the per-atom derivative
loop by rank and stride, combined by elementwise-sum reductions of `gofr`,
`gofrPrime`, `gofrVirial` and of the derivative array) produce exactly the
same scalar pair entropy, per-atom gradients, and virial (the embedding uses
exact real arithmetic). -/
theorem serial_parallel_equiv (C : Consts) (I : RunInput) (dist : ℕ → ℕ → Vec3)
    (absIdx : ℕ → ℕ) (stride : ℕ) (hs : 0 < stride) :
    calcParallel C I dist absIdx stride = calcSerial C I dist absIdx := by
  unfold calcParallel calcSerial
  rw [gofrReduced_eq_serial C dist absIdx I.numAtoms stride hs,
    gofrPrimeReduced_eq_serial C dist absIdx I.numAtoms stride hs,
    gofrVirialReduced_eq_serial C dist absIdx I.numAtoms stride hs,
    derivAssembleReduced_eq_serial I.numAtoms stride hs]

/-- Witness for C2 at a concrete configuration and two workers. -/
theorem serial_parallel_equiv_witness :
    0 < 2 ∧
      calcParallel (mkConsts 1 1 5) ⟨2, 1, -1, false, fun _ => 0, false, fun _ => 0, 1⟩
          (fun _ _ _ => 0) (fun i => i) 2
        = calcSerial (mkConsts 1 1 5) ⟨2, 1, -1, false, fun _ => 0, false, fun _ => 0, 1⟩
          (fun _ _ _ => 0) (fun i => i) :=
  ⟨by decide,
    serial_parallel_equiv (mkConsts 1 1 5) ⟨2, 1, -1, false, fun _ => 0, false, fun _ => 0, 1⟩
      (fun _ _ _ => 0) (fun i => i) 2 (by decide)⟩

/-- C3: for every sample sequence of length at least 1 with spacing `delta`,
each `integrate` overload returns
`delta * (sum of the interior samples + half of each endpoint)`, and the
vector and tensor overloads agree componentwise with the scalar overload
applied to the component sequences (the overloads are pure functions of
their arguments). -/
theorem integrate_overloads_agree (ls : List ℝ) (lv : List Vec3) (lm : List Tensor3)
    (delta : ℝ) (hs : 1 ≤ ls.length) (hv : 1 ≤ lv.length) (hm : 1 ≤ lm.length) :
    (integrate ls delta
        = delta * ((∑ i in Finset.Ico 1 (ls.length - 1), ls.getD i 0)
          + 0.5 * ls.getD 0 0 + 0.5 * ls.getD (ls.length - 1) 0)) ∧
    (∀ i, integrateVector lv delta i = integrate (lv.map fun v => v i) delta) ∧
    (∀ i j, integrateTensor lm delta i j
        = integrate ((lm.map fun t => t i) |>.map fun r => r j) delta) := by
  refine ⟨?_, ?_, ?_⟩
  · unfold integrate; ring
  · intro i
    unfold integrateVector integrate
    have hlen : (lv.map fun v => v i).length = lv.length := by simp
    have hget : ∀ k : ℕ, (lv.map fun v => v i).getD k 0 = lv.getD k 0 i := by
      intro k
      have : ((0 : Vec3) i) = (0 : ℝ) := rfl
      rw [← this, getD_map_comm lv (fun v => v i) 0 k]
    simp only [hlen, hget, Pi.smul_apply, Pi.add_apply, Finset.sum_apply, smul_eq_mul]
    ring
  · intro i j
    unfold integrateTensor integrate
    have hlen : ((lm.map fun t => t i).map fun r => r j).length = lm.length := by simp
    have hget : ∀ k : ℕ, ((lm.map fun t => t i).map fun r => r j).getD k 0
        = lm.getD k 0 i j := by
      intro k
      have h1 : ((0 : Vec3) j) = (0 : ℝ) := rfl
      have h2 : ((0 : Tensor3) i) = (0 : Vec3) := rfl
      rw [← h1, getD_map_comm (lm.map fun t => t i) (fun r => r j) 0 k, ← h2,
        getD_map_comm lm (fun t => t i) 0 k]
    simp only [hlen, hget, Pi.smul_apply, Pi.add_apply, Finset.sum_apply, smul_eq_mul]
    ring

/-- Witness for C3 on length-1 sequences. -/
theorem integrate_overloads_agree_witness :
    1 ≤ List.length [(1 : ℝ)] ∧
      integrateVector [fun _ => (1 : ℝ)] 2 0
        = integrate (List.map (fun v => v 0) [fun _ => (1 : ℝ)]) 2 :=
  ⟨by decide,
    (integrate_overloads_agree [1] [fun _ => 1] [fun _ _ => 1] 2
      (by decide) (by decide) (by decide)).2.1 0⟩

/-- C6: the running-average update `avg += (g - avg)/iteration` followed by
the iteration increment, started from the constructor state `avg = 0`,
`iteration = 1`, reproduces `g` exactly after `k ≥ 1` steps that all see the
same normalized `g(r)` (every bin of the averaged array equals the
single-step value). -/
theorem avgGofr_fixpoint (nhist : ℕ) (g : ℕ → ℝ) (k : ℕ) (hk : 1 ≤ k) :
    ∀ i, i < nhist → avgAfter nhist g k i = g i := by
  induction k with
  | zero => omega
  | succ k ih =>
    intro i hi
    by_cases hk0 : k = 0
    · subst hk0
      simp [avgAfter, avgUpdate, hi]
    · have hk1 : 1 ≤ k := by omega
      simp [avgAfter, avgUpdate, hi, ih hk1 i hi]

/-- Witness for C6 after a single step. -/
theorem avgGofr_fixpoint_witness :
    1 ≤ 1 ∧ avgAfter 1 (fun _ => (5 : ℝ)) 1 0 = 5 :=
  ⟨by decide, avgGofr_fixpoint 1 (fun _ => (5 : ℝ)) 1 (by decide) 0 (by decide)⟩

/-- C8 counterexample: OUTPUT_STRIDE specified with the value 1 while
neither OUTPUT_GOFR nor OUTPUT_INTEGRAND is enabled does NOT raise the
construction error (the code only checks `outputStride != 1`, not whether
the keyword was specified). -/
theorem outputStride_cex : outputStrideConfigError (some 1) false false = false := by
  decide

/-- C8 (amended): construction raises a fatal error exactly when the parsed
OUTPUT_STRIDE value differs from 1 while neither output flag is enabled, or
when the value is below 1; specifying OUTPUT_STRIDE=1 without output flags is
accepted. -/
theorem outputStrideConfigError_iff (s : Option ℕ) (g i : Bool) :
    outputStrideConfigError s g i = true ↔
      (s.getD 1 ≠ 1 ∧ g = false ∧ i = false) ∨ s.getD 1 < 1 := by
  unfold outputStrideConfigError
  dsimp only
  split_ifs with h1 h2
  · simp [h1]
  · simp only [true_iff]
    exact Or.inr h2
  · simp only [false_iff]
    push_neg
    refine ⟨fun hne hg hi => ?_, by omega⟩
    exact absurd ⟨hne, hg, hi⟩ h1

/-- C9: the `nhist_min` scan terminates inside the `nhist`-element `gofr`
array (returns `some`) precisely when at least one bin satisfies
`gofr[j] ≥ 1e-10`; when every bin is below `1e-10` the loop runs off the end
(`none`, modelling the read of `gofr[nhist]`, past index `nhist-1`). -/
theorem nhistMin_inbounds_iff (gofr : List ℝ) :
    (nhistMinOf gofr).isSome = true ↔
      ∃ j, j < gofr.length ∧ ¬ gofr.getD j 0 < 1e-10 := by
  unfold nhistMinOf
  rw [scanGo_isSome gofr 0 0]
  constructor
  · rintro ⟨x, hx, hnx⟩
    rcases List.mem_iff_get.mp hx with ⟨n, rfl⟩
    refine ⟨n, n.isLt, ?_⟩
    rwa [List.getD_eq_getD_get?, List.get?_eq_get n.isLt]
  · rintro ⟨j, hj, hnj⟩
    refine ⟨gofr.get ⟨j, hj⟩, List.get_mem gofr j hj, ?_⟩
    rwa [List.getD_eq_getD_get?, List.get?_eq_get hj] at hnj

/-- C7 counterexample: on the constant sequence of length `n = 1` the
integrator returns `delta * c` (both half-weights fall on the same single
entry), not `delta * (n-1) * c = 0` as the claim states for every `n ≥ 1`. -/
theorem integrate_constant_cex :
    integrate (List.replicate 1 (1 : ℝ)) 1 = 1 ∧
      (1 : ℝ) ≠ 1 * (((1 : ℕ) : ℝ) - 1) * 1 := by
  constructor
  · show integrate [(1 : ℝ)] 1 = 1
    unfold integrate
    norm_num
  · norm_num

/-- C7 (amended): for every length `n ≥ 2`, every constant `c`, and every
spacing `delta`, the trapezoid integrator applied to `n` copies of `c`
returns exactly `delta * (n-1) * c`; at `n = 1` it returns `delta * c`
instead. -/
theorem integrate_constant (n : ℕ) (c delta : ℝ) (hn : 2 ≤ n) :
    integrate (List.replicate n c) delta = delta * ((n : ℝ) - 1) * c := by
  have hrep : List.replicate n c = (List.range n).map fun _ => c := by
    rw [List.map_const', List.length_range]
  have hget : ∀ k : ℕ, k < n → (List.replicate n c).getD k 0 = c := by
    intro k hk
    rw [hrep, getD_range_map, if_pos hk]
  unfold integrate
  rw [List.length_replicate]
  rw [hget 0 (by omega), hget (n - 1) (by omega)]
  rw [Finset.sum_congr rfl fun i hi => hget i
    (by have := (Finset.mem_Ico.mp hi).2; omega)]
  rw [Finset.sum_const, Nat.card_Ico, nsmul_eq_mul]
  have h11 : n - 1 - 1 = n - 2 := by omega
  rw [h11, Nat.cast_sub (by omega : 2 ≤ n)]
  push_cast
  ring

/-- Witness for C7 (amended) at `n = 2`. -/
theorem integrate_constant_witness :
    2 ≤ 2 ∧ integrate (List.replicate 2 (3 : ℝ)) 5 = 5 * (((2 : ℕ) : ℝ) - 1) * 3 :=
  ⟨by decide, integrate_constant 2 3 5 (by decide)⟩

/-- C4 counterexample: for `gofr = [0, 1]` the smallest bin index at which
`g` exceeds `1e-10` is `1`, but the scan sets `nhist_min = 0` (the last
below-threshold index, not the first above-threshold one). -/
theorem nhistMin_cex :
    nhistMinOf [(0 : ℝ), 1] = some 0 ∧
      ¬ (1e-10 : ℝ) < ([(0 : ℝ), 1]).getD 0 0 ∧
      (1e-10 : ℝ) < ([(0 : ℝ), 1]).getD 1 0 := by
  refine ⟨?_, by norm_num, by norm_num⟩
  unfold nhistMinOf scanGo
  rw [if_pos (by norm_num)]
  unfold scanGo
  rw [if_neg (by norm_num)]

/-- C4 (amended): when the scan exits in bounds with value `m`, either
`m = 0` with `g[0] ≥ 1e-10` already, or every bin up to and including `m` is
below `1e-10` and bin `m+1` is the first to reach the threshold (so
`nhist_min` is one less than the smallest index at which `g ≥ 1e-10`, not
that index itself, whenever that index is positive); every per-atom
derivative-integrand entry and every virial-integrand entry at bins below
`nhist_min` is zero; and bins with `g < 1e-10` contribute to the value
integrand through the limiting substitution `ref*x^2` (with a reference)
resp. `x^2` (without). -/
theorem nhistMin_characterization (gl : List ℝ) (m : ℕ)
    (hscan : nhistMinOf gl = some m) :
    ((m = 0 ∧ ¬ gl.getD 0 0 < 1e-10) ∨
      ((∀ k, k ≤ m → gl.getD k 0 < 1e-10) ∧ ¬ gl.getD (m + 1) 0 < 1e-10)) ∧
    (∀ (g logG x2 : ℕ → ℝ) (gp : ℕ → ℕ → Vec3) (gv : ℕ → Tensor3) (k j : ℕ),
      k < m → derivIntegrandEntry m g logG x2 gp k j = 0 ∧
        virialIntegrandEntry m g logG x2 gv k = 0) ∧
    (∀ (doRef : Bool) (g ref logG x2 : ℕ → ℝ) (j : ℕ), g j < 1e-10 →
      valueIntegrandEntry doRef g ref logG x2 j
        = if doRef then ref j * x2 j else x2 j) := by
  refine ⟨?_, ?_, ?_⟩
  · rcases scanGo_spec gl 0 0 m hscan with ⟨hm, _, hhd⟩ | ⟨t, _, hm, hall, hnext⟩
    · exact Or.inl ⟨hm, hhd⟩
    · refine Or.inr ⟨?_, ?_⟩
      · intro k hk; exact hall k (by omega)
      · have : m = t := by omega
        rwa [this]
  · intro g logG x2 gp gv k j hk
    constructor
    · unfold derivIntegrandEntry
      rw [if_neg (by rintro ⟨h1, -⟩; omega)]
    · unfold virialIntegrandEntry
      rw [if_neg (by rintro ⟨h1, -⟩; omega)]
  · intro doRef g ref logG x2 j hj
    unfold valueIntegrandEntry
    cases doRef with
    | false => simp [hj]
    | true => simp [hj]

/-- Witness for C4 (amended) on `gofr = [0, 1]`. -/
theorem nhistMin_characterization_witness :
    nhistMinOf [(0 : ℝ), 1] = some 0 ∧
      ((0 = 0 ∧ ¬ ([(0 : ℝ), 1]).getD 0 0 < 1e-10) ∨
        ((∀ k, k ≤ 0 → ([(0 : ℝ), 1]).getD k 0 < 1e-10) ∧
          ¬ ([(0 : ℝ), 1]).getD (0 + 1) 0 < 1e-10)) := by
  have hscan : nhistMinOf [(0 : ℝ), 1] = some 0 := by
    unfold nhistMinOf scanGo
    rw [if_pos (by norm_num)]
    unfold scanGo
    rw [if_neg (by norm_num)]
  exact ⟨hscan, (nhistMin_characterization [(0 : ℝ), 1] 0 hscan).1⟩

theorem volumeVirialTerm_ex_ne_zero : volumeVirialTerm 1 1 [2, 2] ≠ 0 := by
  intro h
  have h00 := congrFun (congrFun h 0) 0
  unfold volumeVirialTerm identityTensor integrate at h00
  simp only [Pi.smul_apply, smul_eq_mul, Pi.zero_apply] at h00
  norm_num at h00

/-- C5 counterexample: with a user-supplied `DENSITY=0` the density is
derived from volume as `N/V` (the claim's "no positive user-supplied
DENSITY"), yet the volume-virial term is not added: the guard is
`density_given < 0`, and `0 < 0` is false, so the virial stays at its
positional part even though the volume term would be nonzero. -/
theorem volumeVirial_cex :
    densityOf 0 4 2 = (4 : ℝ) / 2 ∧
      virialTotal 0 0 1 1 [2, 2] = 0 ∧
      volumeVirialTerm 1 1 [2, 2] ≠ 0 := by
  refine ⟨?_, ?_, volumeVirialTerm_ex_ne_zero⟩
  · unfold densityOf
    rw [if_neg (by norm_num)]
    norm_num
  · unfold virialTotal
    rw [if_neg (by norm_num)]
    simp

/-- C5 (amended): whenever the volume-virial term is nonzero, it is added to
the box-derivative tensor exactly when `density_given < 0` (DENSITY
unspecified, which leaves the constructor default `-1`, or negative); and a
user-supplied `DENSITY=0` still makes the density itself fall back to `N/V`,
so at `density_given = 0` the density is volume-derived but the term is
nevertheless omitted. -/
theorem volumeVirial_guard (dg : ℝ) (vp : Tensor3) (tw d : ℝ) (ivv : List ℝ)
    (N : ℕ) (V : ℝ) (h : volumeVirialTerm tw d ivv ≠ 0) :
    (virialTotal dg vp tw d ivv ≠ vp ↔ dg < 0) ∧ densityOf 0 N V = (N : ℝ) / V := by
  constructor
  · constructor
    · intro hne
      by_contra hnot
      apply hne
      unfold virialTotal
      rw [if_neg hnot, add_zero]
    · intro hlt heq
      apply h
      unfold virialTotal at heq
      rw [if_pos hlt] at heq
      exact (add_right_eq_self).mp heq
  · unfold densityOf
    rw [if_neg (by norm_num)]

/-- Witness for C5 (amended) at a nonzero volume term and `DENSITY` left at
its default `-1`. -/
theorem volumeVirial_guard_witness :
    volumeVirialTerm 1 1 [2, 2] ≠ 0 ∧
      ((virialTotal (-1) 0 1 1 [2, 2] ≠ 0 ↔ (-1 : ℝ) < 0) ∧
        densityOf 0 3 2 = ((3 : ℕ) : ℝ) / 2) :=
  ⟨volumeVirialTerm_ex_ne_zero,
    volumeVirial_guard (-1) 0 1 1 [2, 2] 3 2 volumeVirialTerm_ex_ne_zero⟩

theorem sum_if_const {α : Type} (s : Finset α) (P : Prop) [Decidable P]
    (f : α → Vec3) :
    ∑ j in s, (if P then f j else 0) = if P then ∑ j in s, f j else 0 := by
  by_cases hP : P <;> simp [hP]

theorem sum_smul_integrateVector {α : Type} (s : Finset α) (n : ℕ) (E : ℕ → α → Vec3)
    (c delta : ℝ) (h : ∀ k, k < n → ∑ j in s, E k j = 0) :
    ∑ j in s, c • integrateVector ((List.range n).map fun k => E k j) delta = 0 := by
  rw [← Finset.smul_sum, sum_integrateVector s n E delta h, smul_zero]

theorem calcPost_deriv_sum_zero (C : Consts) (I : RunInput)
    (g0 : ℕ → ℝ) (gp0 : ℕ → ℕ → Vec3) (gv0 : ℕ → Tensor3)
    (assemble : (ℕ → Vec3) → ℕ → Vec3)
    (hgp : ∀ k, ∑ a in Finset.range I.numAtoms, gp0 k a = 0)
    (hassem : ∀ dFull : ℕ → Vec3, ∑ j in Finset.range I.numAtoms, dFull j = 0 →
      ∑ j in Finset.range I.numAtoms, assemble dFull j = 0) :
    (calcPost C I g0 gp0 gv0 assemble).elim True
      (fun out => ∑ j in Finset.range I.numAtoms, out.deriv j = 0) := by
  unfold calcPost
  dsimp only
  split
  · exact trivial
  · apply hassem
    refine sum_smul_integrateVector (Finset.range I.numAtoms) C.nhist _ _ C.deltar ?_
    intro k hk
    unfold derivIntegrandEntry
    rw [sum_if_const]
    split_ifs
    all_goals first
      | rfl
      | rw [← Finset.smul_sum, sum_normalizeGP _ _ gp0 _ k (hgp k), smul_zero]

/-- C10: for every bin `k`, the sum over all atoms of the accumulated
per-bin gradient entries `gofrPrime[k][·]` is the zero 3-vector — for each
rank's share before the reduction, after the elementwise-sum reduction, and
after the uniform per-bin normalization — because every accepted pair adds
the same vector at one index and subtracts it at the other; consequently the
per-atom gradient vectors reported by `calculate()` (serial or parallel)
also sum to zero whenever the step completes. -/
theorem gradient_sum_zero (C : Consts) (dist : ℕ → ℕ → Vec3) (absIdx : ℕ → ℕ)
    (N rank stride k : ℕ) (nb : ℝ) (I : RunInput) :
    (∑ a in Finset.range N, gofrPrimeRaw C dist absIdx N rank stride k a = 0) ∧
    (∑ a in Finset.range N, gofrPrimeReduced C dist absIdx N stride k a = 0) ∧
    (∑ a in Finset.range N,
      normalizeGP C nb (gofrPrimeReduced C dist absIdx N stride) k a = 0) ∧
    ((calcSerial C I dist absIdx).elim True
      (fun out => ∑ j in Finset.range I.numAtoms, out.deriv j = 0)) ∧
    ((calcParallel C I dist absIdx stride).elim True
      (fun out => ∑ j in Finset.range I.numAtoms, out.deriv j = 0)) := by
  refine ⟨sum_gofrPrimeRaw C dist absIdx N rank stride k,
    sum_gofrPrimeReduced C dist absIdx N stride k,
    sum_normalizeGP C nb _ N k (sum_gofrPrimeReduced C dist absIdx N stride k),
    ?_, ?_⟩
  · unfold calcSerial
    apply calcPost_deriv_sum_zero
    · intro k'
      exact sum_gofrPrimeRaw C dist absIdx I.numAtoms 0 1 k'
    · intro dFull hd
      calc ∑ j in Finset.range I.numAtoms, derivAssembleRank I.numAtoms 0 1 dFull j
          = ∑ j in Finset.range I.numAtoms, dFull j :=
            Finset.sum_congr rfl fun j hj => by
              unfold derivAssembleRank
              rw [if_pos ⟨Finset.mem_range.mp hj, Nat.mod_one j⟩]
        _ = 0 := hd
  · unfold calcParallel
    apply calcPost_deriv_sum_zero
    · intro k'
      exact sum_gofrPrimeReduced C dist absIdx I.numAtoms stride k'
    · intro dFull hd
      rcases Nat.eq_zero_or_pos stride with hstr | hstr
      · subst hstr
        simp [derivAssembleReduced]
      · calc ∑ j in Finset.range I.numAtoms, derivAssembleReduced I.numAtoms stride dFull j
            = ∑ j in Finset.range I.numAtoms, dFull j :=
              Finset.sum_congr rfl fun j hj => by
                unfold derivAssembleReduced derivAssembleRank
                have hjN : j < I.numAtoms := Finset.mem_range.mp hj
                simp only [hjN, true_and]
                rw [Finset.sum_ite_eq (Finset.range stride) (j % stride)
                  (fun _ => dFull j)]
                rw [if_pos (Finset.mem_range.mpr (Nat.mod_lt j hstr))]
          _ = 0 := hd

end PairEntropy
